import Mathlib

/-!
# Verification of the crawl-coordination subsystem of `srtp_llm_darknet`

This file gives a shallow embedding, in Lean 4, of the crawl-coordination
code of the repository (URL normalisation, frontier seeding, link
extraction and enqueueing, the worker loop, the HTTP fetch boundary and
the content saver), together with theorems settling the spec's claims
about it.

The repository contains two coexisting generations of the crawler:

* the live path wired up by `main.py`: `src/crawler/worker.py`,
  `src/crawler/http_client.py`, `src/crawler/link_extractor.py`,
  `src/crawler/coordinator.py`, using `src/utils/url_processor.py`
  (and the identical `URLProcessor` re-defined inside `coordinator.py`);
* a refactored generation: `src/crawler/client.py`, `src/crawler/saver.py`,
  `src/crawler/url_processor.py` with `src/common/config.py`.

Both generations are embedded where they differ (`utilsCanonicalize` vs
`crawlerCanonicalize`, `utilsIsOnion` vs `crawlerIsOnion`, `clientFetch`
vs `httpClientFetch`), because the spec's sentences draw on both.

The URL functions delegate to Python's `urllib.parse`; that standard
library code is embedded here (`pyUrlsplit`, `pyUrlparse`, `pyUrlunparse`)
following CPython's `Lib/urllib/parse.py` (3.11) line by line, with these
modelling notes:

* `str.lower`/`str.strip` are modelled on ASCII (the non-ASCII Unicode
  case mappings and whitespace classes are not modelled);
* `_checknetloc`'s NFKC check (which can only raise for non-ASCII
  netlocs) and 3.11+'s `_check_bracketed_host` are not modelled; the
  `Invalid IPv6 URL` ValueError for unbalanced brackets, present in every
  CPython 3, is modelled;
* `ValueError` is modelled as `Except.error`.
-/

namespace Darknet

/-! ## Embedded CPython `urllib.parse` -/

/-- The five components produced by `urllib.parse.urlsplit`. -/
structure SplitResult where
  scheme : String
  netloc : String
  path : String
  query : String
  fragment : String
deriving DecidableEq, Repr

/-- The six components produced by `urllib.parse.urlparse`. -/
structure ParseResult where
  scheme : String
  netloc : String
  path : String
  params : String
  query : String
  fragment : String
deriving DecidableEq, Repr

/-- ASCII lower-casing of one character (model of `str.lower` on ASCII). -/
def asciiLower (c : Char) : Char :=
  if 'A' ≤ c ∧ c ≤ 'Z' then Char.ofNat (c.toNat + 32) else c

/-- ASCII lower-casing of a string. -/
def lowerS (s : String) : String := String.mk (s.data.map asciiLower)

/-- `scheme_chars` of `urllib.parse`. -/
def schemeChars : List Char :=
  "abcdefghijklmnopqrstuvwxyzABCDEFGHIJKLMNOPQRSTUVWXYZ0123456789+-.".data

/-- Is `c` an ASCII letter (model of `c.isascii() and c.isalpha()`)? -/
def isAsciiAlpha (c : Char) : Bool :=
  ('a' ≤ c ∧ c ≤ 'z') ∨ ('A' ≤ c ∧ c ≤ 'Z')

/-- Split a character list at the first occurrence of `c`
(model of `str.split(c, 1)`); `none` when `c` does not occur.
The delimiter itself is dropped. -/
def splitFirst (c : Char) : List Char → Option (List Char × List Char)
  | [] => none
  | x :: xs =>
    if x = c then some ([], xs)
    else (splitFirst c xs).map (fun p => (x :: p.1, p.2))

/-- Split a character list at its last occurrence of `c`; the delimiter is
dropped and the second component contains no `c`. -/
def splitLast (c : Char) (l : List Char) : Option (List Char × List Char) :=
  match splitFirst c l.reverse with
  | none => none
  | some (revAfter, revBefore) => some (revBefore.reverse, revAfter.reverse)

/-- `_WHATWG_C0_CONTROL_OR_SPACE` left-strip done by `urlsplit`. -/
def lstripC0 (l : List Char) : List Char :=
  l.dropWhile (fun c => c.toNat ≤ 0x20)

/-- Removal of `_UNSAFE_URL_BYTES_TO_REMOVE` (tab, CR, LF) done by `urlsplit`. -/
def removeUnsafe (l : List Char) : List Char :=
  l.filter (fun c => ¬ (c = '\t' ∨ c = '\r' ∨ c = '\n'))

/-- The scheme-detection step of `urlsplit`: if the text before the first
`':'` is a nonempty run of `scheme_chars` starting with an ASCII letter,
it is the (lower-cased) scheme and the remainder follows the `':'`;
otherwise there is no scheme and the input is unchanged. -/
def splitScheme (l : List Char) : String × List Char :=
  match splitFirst ':' l with
  | none => ("", l)
  | some (pre, post) =>
    if pre ≠ [] ∧ (∀ c ∈ pre.take 1, isAsciiAlpha c) ∧ (∀ c ∈ pre, c ∈ schemeChars)
    then (String.mk (pre.map asciiLower), post)
    else ("", l)

/-- `_splitnetloc`: the netloc runs up to the next `'/'`, `'?'` or `'#'`;
the remainder keeps that delimiter. -/
def splitNetloc (l : List Char) : List Char × List Char :=
  (l.takeWhile (fun c => ¬ (c = '/' ∨ c = '?' ∨ c = '#')),
   l.dropWhile (fun c => ¬ (c = '/' ∨ c = '?' ∨ c = '#')))

/-- The netloc step of `urlsplit`: a netloc is present only when the
remainder starts with `//`. -/
def netlocStage (l : List Char) : List Char × List Char :=
  if l.take 2 = ['/', '/'] then splitNetloc (l.drop 2) else ([], l)

/-- Model of `urllib.parse.urlsplit` (default `scheme=''`,
`allow_fragments=True`) on a character list. -/
def pyUrlsplitL (l0 : List Char) : Except String SplitResult :=
  let l := removeUnsafe (lstripC0 l0)
  let (scheme, l) := splitScheme l
  let (netloc, l) := netlocStage l
  if (netloc.contains '[') ≠ (netloc.contains ']') then
    .error "Invalid IPv6 URL"
  else
    let (l, fragment) :=
      match splitFirst '#' l with
      | none => (l, [])
      | some (a, b) => (a, b)
    let (path, query) :=
      match splitFirst '?' l with
      | none => (l, [])
      | some (a, b) => (a, b)
    .ok ⟨scheme, String.mk netloc, String.mk path, String.mk query, String.mk fragment⟩

/-- Model of `urllib.parse.urlsplit` on a string. -/
def pyUrlsplit (s : String) : Except String SplitResult := pyUrlsplitL s.data

/-- `uses_params` of `urllib.parse`. -/
def usesParams : List String :=
  ["", "ftp", "hdl", "prospero", "http", "imap", "https", "shttp",
   "rtsp", "rtspu", "sip", "sips", "mms", "sftp", "tel"]

/-- `_splitparams`: split path parameters off the last path segment.
`url.find(';', url.rfind('/'))` is the first `';'` within the last
segment when the path contains a `'/'`, the first `';'` overall
otherwise. -/
def splitParamsL (l : List Char) : List Char × List Char :=
  match splitLast '/' l with
  | some (before, lastSeg) =>
    match splitFirst ';' lastSeg with
    | none => (l, [])
    | some (a, b) => (before ++ '/' :: a, b)
  | none =>
    match splitFirst ';' l with
    | none => (l, [])
    | some (a, b) => (a, b)

/-- Model of `urllib.parse.urlparse`: `urlsplit` plus the parameter split,
applied only for schemes in `uses_params` and paths containing `';'`. -/
def pyUrlparse (s : String) : Except String ParseResult := do
  let r ← pyUrlsplit s
  let (path, params) :=
    if usesParams.contains r.scheme && r.path.data.contains ';' then
      splitParamsL r.path.data
    else (r.path.data, [])
  .ok ⟨r.scheme, r.netloc, String.mk path, String.mk params, r.query, r.fragment⟩

/-- Model of `urllib.parse.urlunsplit`. -/
def pyUrlunsplit (scheme netloc url query fragment : String) : String :=
  let url :=
    if netloc ≠ "" ∨ (url.data.take 2 = "//".data) then
      "//" ++ netloc ++ (if url ≠ "" ∧ url.data.take 1 ≠ "/".data then "/" ++ url else url)
    else url
  let url := if scheme ≠ "" then scheme ++ ":" ++ url else url
  let url := if query ≠ "" then url ++ "?" ++ query else url
  if fragment ≠ "" then url ++ "#" ++ fragment else url

/-- Model of `urllib.parse.urlunparse`. -/
def pyUrlunparse (scheme netloc path params query fragment : String) : String :=
  pyUrlunsplit scheme netloc
    (if params ≠ "" then path ++ ";" ++ params else path) query fragment

/-- Model of `SplitResult.hostname` restricted to unbracketed netlocs:
the text after the last `'@'`, before the first `':'`, lower-cased
(CPython `_hostinfo`; the IPv6 bracket case is not needed here). -/
def pyHostname (netloc : String) : String :=
  let afterAt :=
    match splitLast '@' netloc.data with
    | none => netloc.data
    | some (_, after) => after
  lowerS (String.mk (afterAt.takeWhile (· ≠ ':')))

/-! ## `URLProcessor` (`src/utils/url_processor.py`, `src/crawler/url_processor.py`,
and the copy defined inside `src/crawler/coordinator.py`) -/

/-- Model of Python `str.strip()` (ASCII whitespace). -/
def pyStrip (s : String) : String :=
  let ws : Char → Bool := fun c =>
    c = ' ' ∨ c = '\t' ∨ c = '\n' ∨ c = '\r' ∨ c = '\x0b' ∨ c = '\x0c'
  String.mk (((s.data.dropWhile ws).reverse.dropWhile ws).reverse)

/-- Model of Python `str.startswith` on strings. -/
def pyStartsWith (s pre : String) : Bool :=
  s.data.take pre.data.length = pre.data

/-- Model of Python `str.endswith` on strings. -/
def pyEndsWith (s suf : String) : Bool :=
  s.data.drop (s.data.length - suf.data.length) = suf.data

/-- `URLProcessor.normalize` (identical in `src/utils/url_processor.py`,
`src/crawler/url_processor.py` and `src/crawler/coordinator.py`): strip,
prepend `http://` unless the lower-cased string starts with `http`, then
lower-case the whole URL. -/
def pyNormalize (url : String) : String :=
  let url := pyStrip url
  let url := if pyStartsWith (lowerS url) "http" then url else "http://" ++ url
  lowerS url

/-- Model of Python `str.rstrip('/')`. -/
def rstripSlash (s : String) : String :=
  String.mk ((s.data.reverse.dropWhile (· = '/')).reverse)

/-- `URLProcessor.canonicalize` of `src/utils/url_processor.py` (the same
code is repeated inside `src/crawler/coordinator.py`): lower-case scheme
and netloc, `rstrip('/')` the path, keep params and query, drop the
fragment.  There is no `try`, so a `ValueError` from `urlparse`
propagates to the caller (`Except.error`). -/
def utilsCanonicalize (url : String) : Except String String := do
  let p ← pyUrlparse url
  .ok (pyUrlunparse (lowerS p.scheme) (lowerS p.netloc) (rstripSlash p.path)
        p.params p.query "")

/-- `URLProcessor.canonicalize` of `src/crawler/url_processor.py`: as the
utils variant but the empty path becomes `"/"` (`rstrip('/') or '/'`),
and any exception yields the sentinel `""`. -/
def crawlerCanonicalize (url : String) : String :=
  match pyUrlparse url with
  | .ok p =>
    let path := if rstripSlash p.path = "" then "/" else rstripSlash p.path
    pyUrlunparse (lowerS p.scheme) (lowerS p.netloc) path p.params p.query ""
  | .error _ => ""

/-- `URLProcessor.is_onion` of `src/utils/url_processor.py` (also repeated
inside `src/crawler/coordinator.py`): `urlparse(url).netloc.endswith(".onion")`,
with no exception handler, so a parse `ValueError` propagates. -/
def utilsIsOnion (url : String) : Except String Bool := do
  let p ← pyUrlparse url
  .ok (pyEndsWith p.netloc ".onion")

/-- `URLProcessor.is_onion` of `src/crawler/url_processor.py`: the same
test but any exception is caught and yields `false`. -/
def crawlerIsOnion (url : String) : Bool :=
  match pyUrlparse url with
  | .ok p => pyEndsWith p.netloc ".onion"
  | .error _ => false

/-- `URLProcessor.get_domain` of `src/crawler/url_processor.py`
(`src/crawler/saver.py` imports it as `src.common.url_processor`, a
module path absent from the tree; the in-tree
`src/crawler/url_processor.py` carries this definition):
`urlparse(url).netloc`, `""` on exception. -/
def getDomain (url : String) : String :=
  match pyUrlparse url with
  | .ok p => p.netloc
  | .error _ => ""

/-! ## Frontier state: the Redis task queue and visited set

`config.MAX_DEPTH = 5` and the queue/set key names are from
`config/__init__.py` and `src/common/config.py` (identical values).
The Redis list `darknet_tasks` is modelled as a `List CrawlTask`
(`RPUSH` appends, `BLPOP` pops the head) and the Redis set
`visited_urls` as a duplicate-free `List String` (`SADD` appends if
absent, `SISMEMBER` is membership). Each individual Redis command is
atomic; sequences of commands are not. -/

/-- A task on the frontier queue: `{"url": ..., "depth": ...}`. -/
structure CrawlTask where
  url : String
  depth : Nat
deriving DecidableEq, Repr

/-- The shared Redis state: task queue and visited set. -/
structure RedisState where
  queue : List CrawlTask
  visited : List String
deriving DecidableEq, Repr

/-- `config.MAX_DEPTH`. -/
def MAX_DEPTH : Nat := 5

/-- Redis `SADD` on the modelled set. -/
def sadd (v : List String) (u : String) : List String :=
  if v.contains u then v else v ++ [u]

/-- Python `set.add` on a set of strings modelled as a duplicate-free
list (no claim depends on Python's set iteration order). -/
def setAdd (l : List String) (u : String) : List String :=
  if l.contains u then l else l ++ [u]

/-! ## `LinkExtractor` (`src/crawler/link_extractor.py`) -/

/-- `LinkExtractor._find_links`: the `href`/`src` attribute values found
by BeautifulSoup are the input list `hrefs` (HTML parsing is the external
`bs4` collaborator), and `urljoin` is the standard-library resolver,
abstracted as `join`. Falsy (empty) attribute values are skipped; each
remaining one is joined with the base URL, normalized, kept when
`is_onion` holds, and canonicalized into the result set. `is_onion` and
`canonicalize` here are the `src/utils/url_processor.py` variants, whose
parse errors propagate. -/
def findLinks (join : String → String → String) (base : String)
    (hrefs : List String) : Except String (List String) :=
  hrefs.foldlM (fun acc href =>
    if href = "" then .ok acc
    else do
      let full := join base href
      let norm := pyNormalize full
      let isO ← utilsIsOnion norm
      if isO then do
        let canon ← utilsCanonicalize norm
        .ok (setAdd acc canon)
      else .ok acc) []

/-- `LinkExtractor._filter_new_links`: keep the links that are not in the
visited set (one `SISMEMBER` per link). -/
def filterNewLinks (links : List String) (visited : List String) : List String :=
  links.filter (fun l => ¬ visited.contains l)

/-- `LinkExtractor._add_to_queue`: for each link, `RPUSH` the task and
`SADD` the link. -/
def addToQueue (links : List String) (depth : Nat) (st : RedisState) : RedisState :=
  links.foldl (fun s link =>
    ⟨s.queue ++ [⟨link, depth⟩], sadd s.visited link⟩) st

/-- `LinkExtractor.extract_links`: return immediately when
`depth >= config.MAX_DEPTH`; otherwise find links, filter the new ones
and enqueue them at `depth + 1`. -/
def extractLinks (join : String → String → String) (hrefs : List String)
    (base : String) (depth : Nat) (st : RedisState) : Except String RedisState :=
  if depth ≥ MAX_DEPTH then .ok st
  else do
    let links ← findLinks join base hrefs
    let newLinks := filterNewLinks links st.visited
    .ok (addToQueue newLinks (depth + 1) st)

/-! ## Interleaved execution of the link-discovery Redis commands

`_filter_new_links` issues one `SISMEMBER` per link, and `_add_to_queue`
later issues `RPUSH` then `SADD` per new link. For two workers that both
discovered the same single link, each worker's protocol is the three
atomic commands `SISMEMBER` → `RPUSH` → `SADD`, with arbitrary
interleaving between workers. -/

/-- Program counter of one worker running check → push → mark for one link. -/
inductive WPc where
  | atCheck
  | atPush
  | atMark
  | finished
deriving DecidableEq, Repr

/-- Local state of one worker: program counter, and whether its
`SISMEMBER` check reported the link as new. -/
structure WorkerCtl where
  pc : WPc
  sawNew : Bool
deriving DecidableEq, Repr

/-- Global state of the two-worker interleaving: the shared Redis state
and each worker's local state. -/
structure RaceState where
  redis : RedisState
  w0 : WorkerCtl
  w1 : WorkerCtl
deriving DecidableEq, Repr

/-- One atomic step of one worker handling link `u` at child depth
`depth`: `SISMEMBER` (skip everything if already visited), then `RPUSH`,
then `SADD`. -/
def stepWorker (u : String) (depth : Nat) :
    RedisState × WorkerCtl → RedisState × WorkerCtl
  | (st, ctl) =>
    match ctl.pc with
    | .atCheck =>
      if st.visited.contains u then (st, ⟨.finished, false⟩)
      else (st, ⟨.atPush, true⟩)
    | .atPush => (⟨st.queue ++ [⟨u, depth⟩], st.visited⟩, ⟨.atMark, ctl.sawNew⟩)
    | .atMark => (⟨st.queue, sadd st.visited u⟩, ⟨.finished, ctl.sawNew⟩)
    | .finished => (st, ctl)

/-- Schedule one step: `false` steps worker 0, `true` steps worker 1. -/
def stepRace (u : String) (depth : Nat) (which : Bool) (s : RaceState) : RaceState :=
  if which then
    let (r, w) := stepWorker u depth (s.redis, s.w1)
    ⟨r, s.w0, w⟩
  else
    let (r, w) := stepWorker u depth (s.redis, s.w0)
    ⟨r, w, s.w1⟩

/-- Run a whole interleaving schedule. -/
def runRace (u : String) (depth : Nat) (sched : List Bool) (s : RaceState) : RaceState :=
  sched.foldl (fun s b => stepRace u depth b s) s

/-- Initial race state: link unvisited, queue empty, both workers about
to issue their `SISMEMBER`. -/
def raceInit : RaceState :=
  ⟨⟨[], []⟩, ⟨.atCheck, false⟩, ⟨.atCheck, false⟩⟩

/-! ## `Coordinator.initialize_queue` (`src/crawler/coordinator.py`) -/

/-- `Coordinator.initialize_queue`: `PING` (return `false` if Redis is
unreachable), `DEL` both keys when `clear_existing`, then for each seed
URL canonicalize (with the coordinator's own `URLProcessor.canonicalize`,
identical to the utils variant, unguarded) and `RPUSH` a depth-0 task when
the canonical form is truthy. The visited set is never consulted or
updated, and the return value is a success boolean.

`seedStep` is the loop body run for one seed URL: canonicalize (the
coordinator's own `URLProcessor.canonicalize`, identical to the utils
variant, unguarded so a parse error propagates) and `RPUSH` a depth-0
task when the canonical form is truthy. -/
def seedStep (s : RedisState) (u : String) : Except String RedisState := do
  let canon ← utilsCanonicalize u
  if canon ≠ "" then
    .ok (⟨s.queue ++ [⟨canon, 0⟩], s.visited⟩ : RedisState)
  else .ok s

/-- The whole of `initialize_queue`: `PING`, optional clear, then the
seed loop. -/
def initializeQueue (redisUp : Bool) (seeds : List String)
    (clearExisting : Bool) (st : RedisState) : Except String (Bool × RedisState) :=
  if ¬ redisUp then .ok (false, st)
  else do
    let st : RedisState := if clearExisting then ⟨[], []⟩ else st
    let st ← seeds.foldlM seedStep st
    .ok (true, st)

/-! ## `Worker.run` / `Worker.process_page` (`src/crawler/worker.py`)

The worker loop repeatedly issues `BLPOP` with a 30-second timeout and
handles the popped payload. The model's input is the stream of `BLPOP`
results together with, for each well-formed task, the outcome of the
page-processing tail that follows the `SADD` and the fetch (HTML parsing
via BeautifulSoup, text persistence via `save_content`, and
`extract_links`); any of those can raise, which the oracle `outcome`
captures. The `extract_links` state effects themselves are modelled
separately by `extractLinks` above. `json.loads` failures are the
`badJson` item. -/

/-- One `BLPOP` result as the worker sees it. -/
inductive TaskItem where
  /-- `BLPOP` timed out: the queue stayed empty for 30 s. -/
  | timeout
  /-- The payload was not valid JSON (`json.loads` raised). -/
  | badJson
  /-- A decoded task: its `url` field (absent ↦ `none`), its `depth`
  field, and the outcome of the page-processing tail after the fetch. -/
  | task (url : Option String) (depth : Nat) (outcome : Except String Unit)
deriving Repr

/-- Why the worker loop ended. -/
inductive StopReason where
  /-- `BLPOP` returned no task: the worker logs and breaks. -/
  | timeout
  /-- The modelled dequeue stream was exhausted (observation window
  ended; the real loop would keep blocking). -/
  | streamEnd
  /-- An exception escaped the per-iteration code and was caught by the
  `try`/`except` that wraps the whole `while` loop, ending it. -/
  | crashed
deriving DecidableEq, Repr

/-- Observable outcome of a worker run: the URLs passed to
`http_client.fetch`, the canonical URLs `SADD`ed by `process_page`, why
the loop stopped, and the dequeue-stream items never consumed. -/
structure WorkerRun where
  fetched : List String
  visitedAdds : List String
  stop : StopReason
  leftover : List TaskItem
deriving Repr

/-- The worker loop: skip empty/absent URLs and non-onion URLs without
fetching or marking; otherwise `process_page` canonicalizes, `SADD`s the
canonical URL, fetches, and runs the processing tail. An exception from
`is_onion`, `canonicalize` or the tail is caught only by the handler
outside the loop, which ends the run. -/
def runWorkerAux : List TaskItem → List String → List String → WorkerRun
  | [], fetched, visitedAdds => ⟨fetched, visitedAdds, .streamEnd, []⟩
  | .timeout :: rest, fetched, visitedAdds => ⟨fetched, visitedAdds, .timeout, rest⟩
  | .badJson :: rest, fetched, visitedAdds => runWorkerAux rest fetched visitedAdds
  | .task url _depth outcome :: rest, fetched, visitedAdds =>
    match url with
    | none => runWorkerAux rest fetched visitedAdds
    | some u =>
      if u = "" then runWorkerAux rest fetched visitedAdds
      else
        match utilsIsOnion u with
        | .error _ => ⟨fetched, visitedAdds, .crashed, rest⟩
        | .ok false => runWorkerAux rest fetched visitedAdds
        | .ok true =>
          match utilsCanonicalize u with
          | .error _ => ⟨fetched, visitedAdds, .crashed, rest⟩
          | .ok canon =>
            match outcome with
            | .ok _ => runWorkerAux rest (fetched ++ [u]) (visitedAdds ++ [canon])
            | .error _ => ⟨fetched ++ [u], visitedAdds ++ [canon], .crashed, rest⟩

/-- A worker run starting with nothing fetched or marked. -/
def runWorker (items : List TaskItem) : WorkerRun :=
  runWorkerAux items [] []

/-! ## `ContentSaver` (`src/crawler/saver.py`)

Directory constants are from `src/common/config.py` (the absolute
`BASE_DIR`/`DATA_DIR` prefix computed from the install location is
elided; only the path strings' identity matters here). The SHA-256 of
`hashlib` is the external collaborator `sha256hex`, and `datetime.now()`
is made explicit as the `timestamp` argument (format `%Y%m%d%H%M%S`).
The filesystem is modelled as an association list from paths to file
contents; `os.makedirs` is a no-op in this model. -/

/-- `config.TEXT_DIR`. -/
def TEXT_DIR : String := "data/input/text"

/-- `config.IMAGE_DIR`. -/
def IMAGE_DIR : String := "data/input/images"

/-- `config.SCREENSHOTS_DIR`. -/
def SCREENSHOTS_DIR : String := "data/input/screenshots"

/-- `config.FILE_DIR`. -/
def FILE_DIR : String := "data/input/files"

/-- `config.SUPPORTED_IMAGE_FORMATS`. -/
def SUPPORTED_IMAGE_FORMATS : List String := [".jpg", ".jpeg", ".png", ".bmp"]

/-- Model of `os.path.splitext` (POSIX separator `'/'`): the extension is
the part of the basename from its last `'.'`, unless the basename up to
that dot is all dots. -/
def pySplitext (p : String) : String × String :=
  let (dir, base) :=
    match splitLast '/' p.data with
    | none => (([] : List Char), p.data)
    | some (d, b) => (d ++ ['/'], b)
  match splitLast '.' base with
  | none => (p, "")
  | some (before, after) =>
    if before.any (· ≠ '.') then
      (String.mk (dir ++ before), String.mk ('.' :: after))
    else (p, "")

/-- `ContentSaver.get_save_path`: pick the base directory and extension
from the content type (for images, the URL-path extension when it is a
supported image format, else `.jpg`; for the file/video fallback, the
URL-path extension or `.bin`), then build
`{base_dir}/{domain}/{hash[:2]}/{timestamp}_{hash[:16]}{ext}` from the
first 16 hex chars of the SHA-256 of the content. `urlparse` errors
propagate (they are caught in `save`). -/
def getSavePath (sha256hex : List UInt8 → String) (url ctype : String)
    (content : List UInt8) (timestamp : String) : Except String String := do
  let (baseDir, ext) ←
    if ctype = "text" then .ok (TEXT_DIR, ".txt")
    else if ctype = "image" then do
      let p ← pyUrlparse url
      let (_, urlExt) := pySplitext p.path
      .ok (IMAGE_DIR,
        if SUPPORTED_IMAGE_FORMATS.contains (lowerS urlExt) then urlExt else ".jpg")
    else if ctype = "screenshot" then .ok (SCREENSHOTS_DIR, ".png")
    else do
      let p ← pyUrlparse url
      let (_, ext0) := pySplitext p.path
      .ok (FILE_DIR, if ext0 = "" then ".bin" else ext0)
  let contentHash := (sha256hex content).take 16
  let domain := getDomain url
  let subDir := baseDir ++ "/" ++ domain ++ "/" ++ contentHash.take 2
  .ok (subDir ++ "/" ++ timestamp ++ "_" ++ contentHash ++ ext)

/-- `ContentSaver.save`: return on falsy content; compute the save path;
skip the write when a file already exists at that path; otherwise write.
Any exception is logged and swallowed, leaving the filesystem unchanged. -/
def save (sha256hex : List UInt8 → String) (url ctype : String)
    (content : List UInt8) (timestamp : String)
    (fs : List (String × List UInt8)) : List (String × List UInt8) :=
  if content = [] then fs
  else
    match getSavePath sha256hex url ctype content timestamp with
    | .error _ => fs
    | .ok path =>
      if fs.any (fun e => e.1 = path) then fs
      else fs ++ [(path, content)]

/-! ## The two fetch clients (`src/crawler/client.py`, `src/crawler/http_client.py`)

The network is the external collaborator: a fetch observes either a
response (status, `Content-Type` header, body bytes) or an exception
(timeout, DNS, proxy, connection error), supplied as the `resp`
argument. Calls into the persistence layer (`ContentSaver.save` in
`client.py`, `io_utils.save_content` in `http_client.py` — both of which
swallow their own errors) are recorded as `SaveCall` events. Decoding is
the standard library's: `bytes.decode("utf-8")` may fail
(`decodeUtf8 = none`), `bytes.decode("latin-1")` is total, and aiohttp's
charset-sniffing `response.text()` is the oracle `respText`. -/

/-- An observed HTTP response. -/
structure PyResponse where
  status : Nat
  contentType : String
  body : List UInt8
deriving DecidableEq, Repr

/-- A recorded call to the content-persistence boundary. -/
structure SaveCall where
  kind : String
  url : String
  content : List UInt8
deriving DecidableEq, Repr

/-- Substring scan: does `needle` occur in `hay`? -/
def isInfixB : List Char → List Char → Bool
  | needle, [] => needle.isEmpty
  | needle, c :: rest =>
    (List.take needle.length (c :: rest) == needle) || isInfixB needle rest

/-- Python's substring test `needle in hay`. -/
def pyIn (needle hay : String) : Bool :=
  isInfixB needle.data hay.data

/-- `HttpClient.fetch` of `src/crawler/client.py`: any exception
(including the `raise_for_status` on a status ≥ 400) yields `None` with
nothing saved; an HTML body is decoded as UTF-8, falling back to Latin-1,
and returned; any other body is saved as `image`/`video`/`file` and
`None` is returned. -/
def clientFetch (decodeUtf8 : List UInt8 → Option String)
    (decodeLatin1 : List UInt8 → String)
    (resp : Except String PyResponse) (url : String) :
    Option String × List SaveCall :=
  match resp with
  | .error _ => (none, [])
  | .ok r =>
    if r.status ≥ 400 then (none, [])
    else
      let ct := lowerS r.contentType
      if pyIn "text/html" ct then
        match decodeUtf8 r.body with
        | some s => (some s, [])
        | none => (some (decodeLatin1 r.body), [])
      else if pyIn "image" ct then (none, [⟨"image", url, r.body⟩])
      else if pyIn "video" ct then (none, [⟨"video", url, r.body⟩])
      else (none, [⟨"file", url, r.body⟩])

/-- `HttpClient.fetch` of `src/crawler/http_client.py`: on any exception
or a status other than 200, return `(None, False)` with nothing saved;
HTML bodies are returned via `response.text()`; image and video bodies
are saved under their kind; bodies whose content type mentions
`application/pdf`, `application/msword`, `audio/` or
`application/octet-stream` are saved as `file`; any other non-HTML body
is dropped without saving; all non-HTML successes return `(None, True)`. -/
def httpClientFetch (respText : PyResponse → String)
    (resp : Except String PyResponse) (url : String) :
    (Option String × Bool) × List SaveCall :=
  match resp with
  | .error _ => ((none, false), [])
  | .ok r =>
    if r.status = 200 then
      let ct := lowerS r.contentType
      if pyIn "text/html" ct then ((some (respText r), true), [])
      else
        let saves :=
          if pyIn "image" ct then [(⟨"image", url, r.body⟩ : SaveCall)]
          else if pyIn "video" ct then [(⟨"video", url, r.body⟩ : SaveCall)]
          else if pyIn "application/pdf" ct || pyIn "application/msword" ct
              || pyIn "audio/" ct || pyIn "application/octet-stream" ct then
            [(⟨"file", url, r.body⟩ : SaveCall)]
          else []
        ((none, true), saves)
    else ((none, false), [])

/-! # Theorems settling the claims -/

/-! ## C1 — duplicate-enqueue race in `enqueueIfNew` -/

/-- C1: the spec demands that the visited-set check and the
enqueue-plus-mark be atomic, with exactly one enqueue under concurrent
duplicate discovery. In `LinkExtractor._filter_new_links` /
`_add_to_queue` the `SISMEMBER`, `RPUSH` and `SADD` are three separate
Redis commands with no transaction, so the interleaving in which both
workers run their `SISMEMBER` before either `RPUSH`/`SADD` makes both
callers observe the link as new and enqueues it twice: the code violates
the claimed exactly-once guarantee (the URL does end up in the visited
set). -/
theorem duplicate_enqueue_race :
    (runRace "http://a.onion" 1 [false, true, false, false, true, true] raceInit).redis.queue
      = [⟨"http://a.onion", 1⟩, ⟨"http://a.onion", 1⟩]
    ∧ (runRace "http://a.onion" 1 [false, true, false, false, true, true] raceInit).w0.sawNew = true
    ∧ (runRace "http://a.onion" 1 [false, true, false, false, true, true] raceInit).w1.sawNew = true
    ∧ (runRace "http://a.onion" 1 [false, true, false, false, true, true] raceInit).redis.visited
      = ["http://a.onion"] := by
  refine ⟨rfl, rfl, rfl, rfl⟩

/-! ## C2 — seeding -/

/-- Helper for C2: the seed loop never touches the visited set and only
appends depth-0 tasks, provided every seed canonicalizes without error. -/
theorem seed_foldlM_spec (seeds : List String) :
    ∀ s : RedisState, (∀ u ∈ seeds, ∃ c, utilsCanonicalize u = .ok c) →
      ∃ s' : RedisState, seeds.foldlM seedStep s = .ok s' ∧
        s'.visited = s.visited ∧
        (∀ t ∈ s'.queue, t ∈ s.queue ∨ t.depth = 0) := by
  induction seeds with
  | nil => exact fun s _ => ⟨s, rfl, rfl, fun t ht => .inl ht⟩
  | cons u us ih =>
    intro s h
    obtain ⟨c, hc⟩ := h u (by simp)
    by_cases hne : c = ""
    · obtain ⟨s', h1, h2, h3⟩ := ih s (fun v hv => h v (by simp [hv]))
      exact ⟨s', by simp [List.foldlM, seedStep, hc, hne, h1, bind, Except.bind], h2, h3⟩
    · obtain ⟨s', h1, h2, h3⟩ :=
        ih ⟨s.queue ++ [⟨c, 0⟩], s.visited⟩ (fun v hv => h v (by simp [hv]))
      refine ⟨s', by simp [List.foldlM, seedStep, hc, hne, h1, bind, Except.bind], h2, ?_⟩
      intro t ht
      rcases h3 t ht with h' | h'
      · rcases List.mem_append.1 h' with h'' | h''
        · exact .inl h''
        · simp at h''
          subst h''
          exact .inr rfl
      · exact .inr h'

/-- C2 counterexample: seeding with `["http://example.onion/"]` and
`clearExisting = true` leaves the visited set EMPTY (size 0, not 1):
`initialize_queue` never adds seeds to the visited set, and it returns a
success boolean rather than a count. -/
theorem initialize_queue_counterexample :
    (initializeQueue true ["http://example.onion/"] true ⟨[⟨"stale", 7⟩], ["stale"]⟩).map
        (fun r => (r.1, r.2.queue, r.2.visited.length))
      = .ok (true, [⟨"http://example.onion", 0⟩], 0)
    ∧ (0 : Nat) ≠ 1 := by
  exact ⟨rfl, by decide⟩

/-- C2 (amended): seeding with `clearExisting = true` first clears both
the queue and the visited set, then appends a depth-0 task for each URL
whose canonicalization is truthy, WITHOUT consulting or updating the
visited set, and returns a success boolean (not a count); the concrete
scenario leaves queue size 1 (the canonical seed at depth 0) and visited
size 0. -/
theorem initialize_queue_spec :
    (∀ (st : RedisState) (seeds : List String),
      (∀ u ∈ seeds, ∃ c, utilsCanonicalize u = .ok c) →
      ∃ st' : RedisState,
        initializeQueue true seeds true st = .ok (true, st') ∧
        st'.visited = [] ∧ ∀ t ∈ st'.queue, t.depth = 0)
    ∧ initializeQueue true ["http://example.onion/"] true ⟨[⟨"stale", 7⟩], ["stale"]⟩
        = .ok (true, ⟨[⟨"http://example.onion", 0⟩], []⟩) := by
  constructor
  · intro st seeds h
    obtain ⟨s', h1, h2, h3⟩ := seed_foldlM_spec seeds ⟨[], []⟩ h
    refine ⟨s', by simp [initializeQueue, h1, bind, Except.bind], h2, ?_⟩
    intro t ht
    rcases h3 t ht with h' | h'
    · exact absurd h' (List.not_mem_nil t)
    · exact h'
  · rfl

/-- C2 witness: the general seeding theorem applied to the concrete
scenario seed list. -/
theorem initialize_queue_spec_witness :
    ∃ st' : RedisState,
      initializeQueue true ["http://example.onion/"] true ⟨[], []⟩ = .ok (true, st') ∧
      st'.visited = [] ∧ ∀ t ∈ st'.queue, t.depth = 0 :=
  initialize_queue_spec.1 ⟨[], []⟩ ["http://example.onion/"] (by
    intro u hu
    rw [List.mem_singleton] at hu
    subst hu
    exact ⟨"http://example.onion", rfl⟩)

/-! ## C3 — content-saver dedup -/

/-- C3 counterexample: the save path embeds `datetime.now()` formatted to
the second, so it is NOT deterministic from the content hash; two saves
of identical bytes under the same URL and content type at two different
timestamps write two files (the hash argument is a constant oracle,
consistent with any digest function since the two calls hash identical
bytes). -/
theorem save_twice_counterexample :
    (save (fun _ => "0123456789abcdef") "http://x.onion/a" "text" [1] "20250101000001"
       (save (fun _ => "0123456789abcdef") "http://x.onion/a" "text" [1] "20250101000000" [])).length
      = 2
    ∧ (2 : Nat) ≠ 1 := by
  exact ⟨rfl, by decide⟩

/-- C3 (amended): the save path is deterministic from the URL, content
type, content hash AND the second-resolution timestamp; only when the
second save computes the same timestamp string does it find the file
already at the computed path and skip the write — under equal
timestamps a repeated save of identical bytes is a no-op and exactly one
file results. -/
theorem save_same_timestamp_idempotent :
    ∀ (sha256hex : List UInt8 → String) (url ctype : String) (content : List UInt8)
      (ts : String) (fs : List (String × List UInt8)),
      save sha256hex url ctype content ts (save sha256hex url ctype content ts fs)
        = save sha256hex url ctype content ts fs := by
  intro sha url ctype content ts fs
  by_cases hc : content = []
  · simp [save, hc]
  · rcases hp : getSavePath sha url ctype content ts with e | path
    · simp [save, hc, hp]
    · by_cases hex : fs.any (fun e => e.1 = path) = true
      · simp [save, hc, hp, hex]
      · simp [save, hc, hp, hex, List.any_append]

/-! ## C6 — depth cutoff in link extraction -/

/-- Helper for C6: `_add_to_queue` only ever appends tasks at the depth
it was given. -/
theorem addToQueue_queue_mem :
    ∀ (links : List String) (d : Nat) (st : RedisState) (t : CrawlTask),
      t ∈ (addToQueue links d st).queue → t ∈ st.queue ∨ t.depth = d := by
  intro links
  induction links with
  | nil => exact fun d st t ht => .inl ht
  | cons l ls ih =>
    intro d st t ht
    have h := ih d ⟨st.queue ++ [⟨l, d⟩], sadd st.visited l⟩ t (by
      simpa [addToQueue] using ht)
    rcases h with h | h
    · rcases List.mem_append.1 h with h' | h'
      · exact .inl h'
      · simp at h'
        subst h'
        exact .inr rfl
    · exact .inr h

/-- C6: a task at `depth ≥ config.MAX_DEPTH` produces no enqueued tasks
and no visited-set additions (the state is returned unchanged before any
link is even looked at), and when `depth < MAX_DEPTH` every task the
extraction adds to the queue carries depth `depth + 1`. -/
theorem extract_links_depth_cutoff :
    (∀ (join : String → String → String) (hrefs : List String) (base : String)
        (depth : Nat) (st : RedisState), depth ≥ MAX_DEPTH →
        extractLinks join hrefs base depth st = .ok st)
    ∧ (∀ (join : String → String → String) (hrefs : List String) (base : String)
        (depth : Nat) (st st' : RedisState), depth < MAX_DEPTH →
        extractLinks join hrefs base depth st = .ok st' →
        ∀ t ∈ st'.queue, t ∈ st.queue ∨ t.depth = depth + 1) := by
  constructor
  · intro join hrefs base depth st h
    simp [extractLinks, h]
  · intro join hrefs base depth st st' hlt heq
    have hge : ¬ depth ≥ MAX_DEPTH := by omega
    simp only [extractLinks, if_neg hge] at heq
    cases hfl : findLinks join base hrefs with
    | error e => simp [hfl, bind, Except.bind] at heq
    | ok links =>
      rw [hfl] at heq
      simp only [bind, Except.bind] at heq
      have heq' : addToQueue (filterNewLinks links st.visited) (depth + 1) st = st' := by
        cases heq
        rfl
      intro t ht
      exact addToQueueQueueMemAux heq' ht
  where addToQueueQueueMemAux {links d st st' t} (h : addToQueue links d st = st')
      (ht : t ∈ st'.queue) : t ∈ st.queue ∨ t.depth = d :=
    addToQueue_queue_mem links d st t (h ▸ ht)

/-- C6 witness: at the configured maximum depth 5, extraction of a page
with an in-scope link changes nothing. -/
theorem extract_links_depth_cutoff_witness :
    (5 : Nat) ≥ MAX_DEPTH
    ∧ extractLinks (fun _ h => h) ["http://child.onion/x"] "http://parent.onion/" 5 ⟨[], []⟩
        = .ok ⟨[], []⟩ :=
  ⟨by decide, extract_links_depth_cutoff.1 _ _ _ _ _ (by decide)⟩

/-! ## C4 — exception routing in the worker loop -/

/-- C4 counterexample: a processing exception on the first task ends the
whole worker loop (the `try`/`except` wraps the `while`, not the task
body): the second, perfectly good task is left unprocessed, and the loop
stopped for a reason that is neither a dequeue timeout nor a shutdown. -/
theorem worker_crash_counterexample :
    (runWorker [.task (some "http://a.onion") 0 (.error "boom"),
                .task (some "http://b.onion") 0 (.ok ())]).stop = .crashed
    ∧ (runWorker [.task (some "http://a.onion") 0 (.error "boom"),
                  .task (some "http://b.onion") 0 (.ok ())]).fetched = ["http://a.onion"]
    ∧ (runWorker [.task (some "http://a.onion") 0 (.error "boom"),
                  .task (some "http://b.onion") 0 (.ok ())]).leftover.length = 1
    ∧ StopReason.crashed ≠ StopReason.timeout := by
  exact ⟨rfl, rfl, rfl, by decide⟩

/-- C4 (amended): only `json.loads` failures are caught inside the loop
(the worker skips the malformed payload and continues); an exception
raised while processing a page is caught and logged once by the handler
wrapping the whole loop and TERMINATES the worker, leaving the rest of
the stream unprocessed; a dequeue timeout also stops the loop. -/
theorem worker_loop_exception_routing :
    (∀ rest : List TaskItem, runWorker (.badJson :: rest) = runWorker rest)
    ∧ (∀ (rest : List TaskItem) (f v : List String),
        (runWorkerAux (.timeout :: rest) f v).stop = .timeout)
    ∧ (∀ (u canon : String) (d : Nat) (e : String) (rest : List TaskItem)
        (f v : List String),
        u ≠ "" → utilsIsOnion u = .ok true → utilsCanonicalize u = .ok canon →
        runWorkerAux (.task (some u) d (.error e) :: rest) f v
          = ⟨f ++ [u], v ++ [canon], .crashed, rest⟩) := by
  refine ⟨fun rest => rfl, fun rest f v => rfl, ?_⟩
  intro u canon d e rest f v hne h1 h2
  simp [runWorkerAux, hne, h1, h2]

/-- C4 witness: the exception-routing theorem applied to a concrete
crashing task. -/
theorem worker_loop_exception_routing_witness :
    "http://a.onion" ≠ ""
    ∧ utilsIsOnion "http://a.onion" = .ok true
    ∧ utilsCanonicalize "http://a.onion" = .ok "http://a.onion"
    ∧ runWorkerAux [.task (some "http://a.onion") 0 (.error "boom")] [] []
        = ⟨["http://a.onion"], ["http://a.onion"], .crashed, []⟩ :=
  ⟨by decide, rfl, rfl,
    worker_loop_exception_routing.2.2 "http://a.onion" "http://a.onion" 0 "boom" [] [] []
      (by decide) rfl rfl⟩

/-! ## C10 — only onion URLs are fetched -/

/-- Helper for C10: any URL the loop ever passes to `fetch` either was in
the accumulator already or satisfies the worker's `is_onion` guard. -/
theorem runWorkerAux_fetched_onion :
    ∀ (items : List TaskItem) (f v : List String) (u : String),
      u ∈ (runWorkerAux items f v).fetched → u ∈ f ∨ utilsIsOnion u = .ok true := by
  intro items
  induction items with
  | nil => exact fun f v u h => .inl h
  | cons item rest ih =>
    intro f v u h
    cases item with
    | timeout => exact .inl h
    | badJson => exact ih f v u h
    | task url d outcome =>
      cases url with
      | none => exact ih f v u h
      | some u' =>
        by_cases hne : u' = ""
        · simp only [runWorkerAux, hne, if_pos] at h
          exact ih f v u h
        · cases ho : utilsIsOnion u' with
          | error e =>
            simp [runWorkerAux, hne, ho] at h
            exact .inl h
          | ok b =>
            cases b with
            | false =>
              simp only [runWorkerAux, hne, ho, if_neg] at h
              exact ih f v u h
            | true =>
              cases hcanon : utilsCanonicalize u' with
              | error e =>
                exact .inl (by simpa [runWorkerAux, hne, ho, hcanon] using h)
              | ok canon =>
                cases outcome with
                | ok _ =>
                  have h' := ih (f ++ [u']) (v ++ [canon]) u (by
                    simpa [runWorkerAux, hne, ho, hcanon] using h)
                  rcases h' with h' | h'
                  · rcases List.mem_append.1 h' with h'' | h''
                    · exact .inl h''
                    · simp at h''
                      subst h''
                      exact .inr ho
                  · exact .inr h'
                | error e =>
                  have h2 : u ∈ f ∨ u = u' := by
                    simpa [runWorkerAux, hne, ho, hcanon] using h
                  rcases h2 with h' | h'
                  · exact .inl h'
                  · subst h'
                    exact .inr ho

/-- C10: a dequeued task whose payload lacks a URL, or whose URL fails
the worker's onion test, is discarded without fetching and without any
visited-set mark (the loop state is exactly as if the task never
existed), and consequently every URL the worker ever fetches passes the
onion test. -/
theorem worker_fetches_only_onion :
    (∀ (items : List TaskItem) (u : String),
        u ∈ (runWorker items).fetched → utilsIsOnion u = .ok true)
    ∧ (∀ (d : Nat) (o : Except String Unit) (rest : List TaskItem),
        runWorker (.task none d o :: rest) = runWorker rest)
    ∧ (∀ (u : String) (d : Nat) (o : Except String Unit) (rest : List TaskItem),
        utilsIsOnion u = .ok false →
        runWorker (.task (some u) d o :: rest) = runWorker rest) := by
  refine ⟨?_, fun d o rest => rfl, ?_⟩
  · intro items u h
    rcases runWorkerAux_fetched_onion items [] [] u h with h' | h'
    · exact absurd h' (List.not_mem_nil u)
    · exact h'
  · intro u d o rest h
    by_cases hne : u = ""
    · simp [runWorker, runWorkerAux, hne]
    · simp [runWorker, runWorkerAux, hne, h]

/-- C10 witness: a clearnet task is discarded — the run is identical to
one that never saw it. -/
theorem worker_fetches_only_onion_witness :
    utilsIsOnion "http://example.com/" = .ok false
    ∧ runWorker [.task (some "http://example.com/") 0 (.ok ())] = runWorker [] :=
  ⟨rfl, worker_fetches_only_onion.2.2 "http://example.com/" 0 (.ok ()) [] rfl⟩

/-! ## C7 — fetch classification and the saver hand-off -/

/-- C7 counterexample: in the live `http_client.py`, a successful fetch
with content type `application/zip` (a binary that is neither image,
video, pdf, msword, audio nor octet-stream) returns none WITHOUT handing
the bytes to the saver — they are dropped; the refactored `client.py`
would have saved them as `file`. -/
theorem http_client_drops_binary_counterexample :
    httpClientFetch (fun _ => "") (.ok ⟨200, "application/zip", [1, 2]⟩)
        "http://x.onion/f.zip"
      = ((none, true), [])
    ∧ clientFetch (fun _ => none) (fun _ => "") (.ok ⟨200, "application/zip", [1, 2]⟩)
        "http://x.onion/f.zip"
      = (none, [⟨"file", "http://x.onion/f.zip", [1, 2]⟩]) := by
  exact ⟨rfl, rfl⟩

/-- C7 (amended): in `client.py` every successful non-HTML body is handed
to the Content Saver under the matching kind (`image`/`video`, anything
else as `file`) and `None` is returned, and HTML is returned as UTF-8
text falling back to Latin-1; in the live `http_client.py` only image,
video and the listed file types (pdf, msword, audio, octet-stream) are
saved — any other binary body is dropped without saving, with `(None,
True)` returned, and HTML is decoded by the HTTP library's own charset
handling rather than an explicit UTF-8→Latin-1 fallback. -/
theorem fetch_binary_handoff :
    (∀ (dec : List UInt8 → Option String) (lat : List UInt8 → String)
        (r : PyResponse) (url : String), r.status < 400 →
        pyIn "text/html" (lowerS r.contentType) = false →
        (pyIn "image" (lowerS r.contentType) = true →
          clientFetch dec lat (.ok r) url = (none, [⟨"image", url, r.body⟩]))
        ∧ (pyIn "image" (lowerS r.contentType) = false →
            pyIn "video" (lowerS r.contentType) = true →
            clientFetch dec lat (.ok r) url = (none, [⟨"video", url, r.body⟩]))
        ∧ (pyIn "image" (lowerS r.contentType) = false →
            pyIn "video" (lowerS r.contentType) = false →
            clientFetch dec lat (.ok r) url = (none, [⟨"file", url, r.body⟩])))
    ∧ (∀ (dec : List UInt8 → Option String) (lat : List UInt8 → String)
        (r : PyResponse) (url : String) (s : String), r.status < 400 →
        pyIn "text/html" (lowerS r.contentType) = true →
        (dec r.body = some s → clientFetch dec lat (.ok r) url = (some s, []))
        ∧ (dec r.body = none → clientFetch dec lat (.ok r) url = (some (lat r.body), [])))
    ∧ (∀ (respText : PyResponse → String) (r : PyResponse) (url : String),
        r.status = 200 →
        pyIn "text/html" (lowerS r.contentType) = false →
        pyIn "image" (lowerS r.contentType) = false →
        pyIn "video" (lowerS r.contentType) = false →
        pyIn "application/pdf" (lowerS r.contentType) = false →
        pyIn "application/msword" (lowerS r.contentType) = false →
        pyIn "audio/" (lowerS r.contentType) = false →
        pyIn "application/octet-stream" (lowerS r.contentType) = false →
        httpClientFetch respText (.ok r) url = ((none, true), [])) := by
  refine ⟨?_, ?_, ?_⟩
  · intro dec lat r url hst hhtml
    have hge : ¬ r.status ≥ 400 := by omega
    refine ⟨fun him => ?_, fun him hvid => ?_, fun him hvid => ?_⟩
    · simp [clientFetch, hge, hhtml, him]
    · simp [clientFetch, hge, hhtml, him, hvid]
    · simp [clientFetch, hge, hhtml, him, hvid]
  · intro dec lat r url s hst hhtml
    have hge : ¬ r.status ≥ 400 := by omega
    refine ⟨fun hdec => ?_, fun hdec => ?_⟩
    · simp [clientFetch, hge, hhtml, hdec]
    · simp [clientFetch, hge, hhtml, hdec]
  · intro respText r url hst hhtml him hvid hpdf hword haud hoct
    simp [httpClientFetch, hst, hhtml, him, hvid, hpdf, hword, haud, hoct]

/-- C7 witness: the fetch-classification theorem applied to a concrete
PNG response (saved as `image`, none returned by `client.py`) and to a
concrete zip response dropped by `http_client.py`. -/
theorem fetch_binary_handoff_witness :
    (200 : Nat) < 400
    ∧ pyIn "text/html" (lowerS "image/png") = false
    ∧ pyIn "image" (lowerS "image/png") = true
    ∧ clientFetch (fun _ => none) (fun _ => "") (.ok ⟨200, "image/png", [7]⟩)
        "http://x.onion/p.png"
      = (none, [⟨"image", "http://x.onion/p.png", [7]⟩])
    ∧ httpClientFetch (fun _ => "") (.ok ⟨200, "application/zip", [9]⟩)
        "http://x.onion/f.zip"
      = ((none, true), []) :=
  ⟨by decide, rfl, rfl,
    ((fetch_binary_handoff.1 (fun _ => none) (fun _ => "") ⟨200, "image/png", [7]⟩
        "http://x.onion/p.png" (by decide) rfl).1 rfl),
    (fetch_binary_handoff.2.2 (fun _ => "") ⟨200, "application/zip", [9]⟩
        "http://x.onion/f.zip" rfl rfl rfl rfl rfl rfl rfl rfl)⟩

/-! ## C8 — totality and meaning of the onion-scope test -/

/-- C8 counterexample: the utils `is_onion` (the variant used by the live
worker and link extractor) RAISES on the malformed URL `http://[x.onion`
(unbalanced bracket → `ValueError: Invalid IPv6 URL` propagates), and the
scope test is on the netloc, not the host: for `http://x.onion:8080/` the
host `x.onion` does end with the onion label yet `is_onion` is false. -/
theorem is_onion_counterexample :
    utilsIsOnion "http://[x.onion" = .error "Invalid IPv6 URL"
    ∧ crawlerIsOnion "http://x.onion:8080/" = false
    ∧ pyEndsWith (pyHostname "x.onion:8080") ".onion" = true := by
  exact ⟨rfl, rfl, rfl⟩

/-- C8 (amended): the crawler-package `is_onion` is total — it returns
`netloc.endswith(".onion")` on any URL that parses (so URLs with an
explicit port or userinfo are judged on the whole netloc, not the host)
and `false` when parsing raises; the crawler-package `canonicalize`
returns the empty sentinel on parse failure; the utils variants instead
propagate the parse error. -/
theorem is_onion_total_netloc_spec :
    (∀ (u : String) (p : ParseResult), pyUrlparse u = .ok p →
        crawlerIsOnion u = pyEndsWith p.netloc ".onion")
    ∧ (∀ (u e : String), pyUrlparse u = .error e → crawlerIsOnion u = false)
    ∧ (∀ (u e : String), pyUrlparse u = .error e → crawlerCanonicalize u = "")
    ∧ (∀ (u e : String), pyUrlparse u = .error e → utilsIsOnion u = .error e)
    ∧ (∀ (u e : String), pyUrlparse u = .error e → utilsCanonicalize u = .error e) := by
  refine ⟨?_, ?_, ?_, ?_, ?_⟩
  · intro u p h
    simp [crawlerIsOnion, h]
  · intro u e h
    simp [crawlerIsOnion, h]
  · intro u e h
    simp [crawlerCanonicalize, h]
  · intro u e h
    simp [utilsIsOnion, h, bind, Except.bind]
  · intro u e h
    simp [utilsCanonicalize, h, bind, Except.bind]

/-- C8 witness: the totality theorem applied to a well-formed onion URL
and to the malformed bracket URL. -/
theorem is_onion_total_netloc_spec_witness :
    pyUrlparse "http://sample.onion/x" = .ok ⟨"http", "sample.onion", "/x", "", "", ""⟩
    ∧ crawlerIsOnion "http://sample.onion/x" = pyEndsWith "sample.onion" ".onion"
    ∧ pyUrlparse "http://[x" = .error "Invalid IPv6 URL"
    ∧ crawlerIsOnion "http://[x" = false
    ∧ crawlerCanonicalize "http://[x" = "" :=
  ⟨rfl,
    is_onion_total_netloc_spec.1 "http://sample.onion/x"
      ⟨"http", "sample.onion", "/x", "", "", ""⟩ rfl,
    rfl,
    is_onion_total_netloc_spec.2.1 "http://[x" "Invalid IPv6 URL" rfl,
    is_onion_total_netloc_spec.2.2.1 "http://[x" "Invalid IPv6 URL" rfl⟩

/-! ## C5 — canonicalization invariance and output shape -/

/-- `rstrip('/')` absorbs a trailing slash. -/
theorem rstripSlash_append_slash (s : String) :
    rstripSlash (s ++ "/") = rstripSlash s := by
  simp [rstripSlash, String.data_append, List.dropWhile]

/-- C5 counterexample: on the live path (`src/utils/url_processor.py`,
used by the worker and link extractor) the root path is NOT preserved as
`/`: the root URL canonicalizes to `http://example.onion`, whose path
component is empty. Only the refactored `src/crawler/url_processor.py`
variant preserves the root slash. -/
theorem root_slash_counterexample :
    utilsCanonicalize "http://example.onion/" = .ok "http://example.onion"
    ∧ (pyUrlparse "http://example.onion").map ParseResult.path = .ok ""
    ∧ ("" : String) ≠ "/"
    ∧ crawlerCanonicalize "http://example.onion/" = "http://example.onion/" := by
  exact ⟨rfl, rfl, by decide, rfl⟩

/-- C5 (amended): both canonicalize variants are invariant under scheme
case, host case and a trailing path slash, and both produce the unparse
of the lower-cased scheme and netloc, the trailing-slash-stripped path,
the original params and query, and an empty fragment; the root path is
preserved as `/` only in the crawler-package variant — the utils variant
used on the live path strips it to the empty path. -/
theorem canonicalize_case_slash_invariance :
    (∀ (u1 u2 : String) (p1 p2 : ParseResult),
      pyUrlparse u1 = .ok p1 → pyUrlparse u2 = .ok p2 →
      lowerS p1.scheme = lowerS p2.scheme →
      lowerS p1.netloc = lowerS p2.netloc →
      (p1.path = p2.path ∨ p1.path = p2.path ++ "/" ∨ p2.path = p1.path ++ "/") →
      p1.params = p2.params → p1.query = p2.query →
      utilsCanonicalize u1 = utilsCanonicalize u2
      ∧ crawlerCanonicalize u1 = crawlerCanonicalize u2)
    ∧ (∀ (u : String) (p : ParseResult), pyUrlparse u = .ok p →
        utilsCanonicalize u
          = .ok (pyUrlunparse (lowerS p.scheme) (lowerS p.netloc) (rstripSlash p.path)
              p.params p.query "")
        ∧ crawlerCanonicalize u
          = pyUrlunparse (lowerS p.scheme) (lowerS p.netloc)
              (if rstripSlash p.path = "" then "/" else rstripSlash p.path)
              p.params p.query "") := by
  constructor
  · intro u1 u2 p1 p2 h1 h2 hs hn hp hpar hq
    have hpath : rstripSlash p1.path = rstripSlash p2.path := by
      rcases hp with h | h | h
      · rw [h]
      · rw [h, rstripSlash_append_slash]
      · rw [h, rstripSlash_append_slash]
    constructor
    · simp [utilsCanonicalize, h1, h2, bind, Except.bind, hs, hn, hpath, hpar, hq]
    · simp [crawlerCanonicalize, h1, h2, hs, hn, hpath, hpar, hq]
  · intro u p h
    exact ⟨by simp [utilsCanonicalize, h, bind, Except.bind],
      by simp [crawlerCanonicalize, h]⟩

/-- C5 witness: the invariance theorem applied to a pair differing in
scheme case, host case and a trailing slash at once. -/
theorem canonicalize_case_slash_invariance_witness :
    pyUrlparse "HTTP://Example.Onion/a/" = .ok ⟨"http", "Example.Onion", "/a/", "", "", ""⟩
    ∧ pyUrlparse "http://example.onion/a" = .ok ⟨"http", "example.onion", "/a", "", "", ""⟩
    ∧ utilsCanonicalize "HTTP://Example.Onion/a/" = utilsCanonicalize "http://example.onion/a"
    ∧ crawlerCanonicalize "HTTP://Example.Onion/a/"
        = crawlerCanonicalize "http://example.onion/a" := by
  have h := canonicalize_case_slash_invariance.1 "HTTP://Example.Onion/a/"
    "http://example.onion/a" ⟨"http", "Example.Onion", "/a/", "", "", ""⟩
    ⟨"http", "example.onion", "/a", "", "", ""⟩ rfl rfl rfl rfl
    (.inr (.inl (by decide))) rfl rfl
  exact ⟨rfl, rfl, h.1, h.2⟩

/-! ## C9 helper lemmas -/

theorem toNat_ofNatAux (n : Nat) (h : n.isValidChar) : (Char.ofNatAux n h).toNat = n := by
  simp [Char.ofNatAux, Char.toNat, UInt32.toNat]

theorem toNat_asciiLower_of_upper (c : Char) (h : 'A' ≤ c ∧ c ≤ 'Z') :
    (asciiLower c).toNat = c.toNat + 32 := by
  have h1 : 65 ≤ c.toNat := h.1
  have hv : (c.toNat + 32).isValidChar := by
    left
    have h2 : c.toNat ≤ 90 := h.2
    omega
  simp only [asciiLower, if_pos h]
  rw [Char.ofNat, dif_pos hv, toNat_ofNatAux]

theorem asciiLower_eq_self_of_not_upper (c : Char) (h : ¬ ('A' ≤ c ∧ c ≤ 'Z')) :
    asciiLower c = c := by
  simp [asciiLower, h]

/-- `asciiLower` only ever produces lowercase letters or leaves the input
unchanged: a non-lowercase-letter output determines its input. -/
theorem asciiLower_eq_iff (c d : Char) (hd : ¬ (97 ≤ d.toNat ∧ d.toNat ≤ 122)) :
    asciiLower c = d → c = d := by
  intro h
  by_cases hc : 'A' ≤ c ∧ c ≤ 'Z'
  · exfalso
    apply hd
    have := toNat_asciiLower_of_upper c hc
    rw [h] at this
    have h1 : 65 ≤ c.toNat := hc.1
    have h2 : c.toNat ≤ 90 := hc.2
    omega
  · rwa [asciiLower_eq_self_of_not_upper c hc] at h

theorem not_mem_map_asciiLower (d : Char) (hd : ¬ (97 ≤ d.toNat ∧ d.toNat ≤ 122))
    (l : List Char) (h : d ∉ l) : d ∉ l.map asciiLower := by
  intro hmem
  obtain ⟨c, hc, hcd⟩ := List.mem_map.1 hmem
  exact h (asciiLower_eq_iff c d hd hcd ▸ hc)

theorem splitFirst_eq_none_iff (c : Char) (l : List Char) :
    splitFirst c l = none ↔ c ∉ l := by
  induction l with
  | nil => simp [splitFirst]
  | cons x xs ih =>
    by_cases hx : x = c
    · subst hx
      simp [splitFirst]
    · rw [splitFirst, if_neg hx, Option.map_eq_none', ih]
      simp [List.mem_cons, Ne.symm hx]

theorem splitFirst_eq_some (c : Char) (l a b : List Char)
    (h : splitFirst c l = some (a, b)) : l = a ++ c :: b ∧ c ∉ a := by
  induction l generalizing a b with
  | nil => simp [splitFirst] at h
  | cons x xs ih =>
    by_cases hx : x = c
    · subst hx
      rw [splitFirst, if_pos rfl] at h
      simp only [Option.some.injEq, Prod.mk.injEq] at h
      obtain ⟨ha, hb⟩ := h
      subst ha
      subst hb
      exact ⟨rfl, by simp⟩
    · rw [splitFirst, if_neg hx] at h
      cases hs : splitFirst c xs with
      | none => rw [hs] at h; simp at h
      | some p =>
        obtain ⟨a1, b1⟩ := p
        rw [hs] at h
        simp only [Option.map_some', Option.some.injEq, Prod.mk.injEq] at h
        obtain ⟨ha, hb⟩ := h
        subst ha
        subst hb
        obtain ⟨hl, hna⟩ := ih a1 b1 hs
        subst hl
        refine ⟨rfl, ?_⟩
        intro hmem
        rcases List.mem_cons.1 hmem with h' | h'
        · exact hx h'.symm
        · exact hna h'

theorem splitFirst_append_left (c : Char) (a b a1 a2 : List Char)
    (h : splitFirst c a = some (a1, a2)) :
    splitFirst c (a ++ b) = some (a1, a2 ++ b) := by
  induction a generalizing a1 a2 with
  | nil => simp [splitFirst] at h
  | cons x xs ih =>
    by_cases hx : x = c
    · subst hx
      rw [splitFirst, if_pos rfl] at h
      simp only [Option.some.injEq, Prod.mk.injEq] at h
      obtain ⟨ha, hb⟩ := h
      subst ha
      subst hb
      simp [splitFirst]
    · rw [splitFirst, if_neg hx] at h
      cases hs : splitFirst c xs with
      | none => rw [hs] at h; simp at h
      | some p =>
        obtain ⟨p1, p2⟩ := p
        rw [hs] at h
        simp only [Option.map_some', Option.some.injEq, Prod.mk.injEq] at h
        obtain ⟨ha, hb⟩ := h
        subst ha
        subst hb
        have := ih p1 p2 hs
        rw [List.cons_append, splitFirst, if_neg hx, this]
        rfl

theorem splitFirst_append_right (c : Char) (a b : List Char) (h : c ∉ a) :
    splitFirst c (a ++ b) = (splitFirst c b).map (fun p => (a ++ p.1, p.2)) := by
  induction a with
  | nil => simp
  | cons x xs ih =>
    have hx : x ≠ c := fun h' => h (h' ▸ List.mem_cons_self x xs)
    have hxs : c ∉ xs := fun h' => h (List.mem_cons_of_mem x h')
    rw [List.cons_append, splitFirst, if_neg hx, ih hxs]
    cases splitFirst c b with
    | none => rfl
    | some p => rfl

theorem dropWhile_append_cons (p : Char → Bool) (a : List Char) (c : Char)
    (b : List Char) (h : p c = false) :
    List.dropWhile p (a ++ c :: b) = List.dropWhile p a ++ c :: b := by
  induction a with
  | nil => simp [List.dropWhile, h]
  | cons x xs ih =>
    by_cases hx : p x = true
    · simp [List.dropWhile, hx, ih]
    · simp [List.dropWhile, hx]

theorem takeWhile_append_cons (p : Char → Bool) (a : List Char) (c : Char)
    (b : List Char) (h : p c = false) :
    List.takeWhile p (a ++ c :: b) = List.takeWhile p a := by
  induction a with
  | nil => simp [List.takeWhile, h]
  | cons x xs ih =>
    by_cases hx : p x = true
    · simp [List.takeWhile, hx, ih]
    · simp [List.takeWhile, hx]

theorem splitScheme_append_query (A q : List Char) :
    ∃ (s : String) (B : List Char),
      splitScheme (A ++ '?' :: q) = (s, B ++ '?' :: q) ∧ ∀ c ∈ B, c ∈ A := by
  by_cases hc : ':' ∈ A
  · cases hs : splitFirst ':' A with
    | none => exact absurd hc ((splitFirst_eq_none_iff ':' A).1 hs)
    | some p =>
      obtain ⟨a1, a2⟩ := p
      have hsplit := splitFirst_append_left ':' A ('?' :: q) a1 a2 hs
      obtain ⟨hdecomp, _⟩ := splitFirst_eq_some ':' A a1 a2 hs
      rw [splitScheme, hsplit]
      dsimp only
      by_cases hcond : a1 ≠ [] ∧ (∀ c ∈ List.take 1 a1, isAsciiAlpha c = true) ∧
          ∀ c ∈ a1, c ∈ schemeChars
      · rw [if_pos hcond]
        refine ⟨String.mk (a1.map asciiLower), a2, rfl, fun c hcmem => ?_⟩
        rw [hdecomp]
        exact List.mem_append.2 (.inr (List.mem_cons_of_mem _ hcmem))
      · rw [if_neg hcond]
        exact ⟨"", A, rfl, fun c h => h⟩
  · cases hs : splitFirst ':' (A ++ '?' :: q) with
    | none =>
      rw [splitScheme, hs]
      dsimp only
      exact ⟨"", A, rfl, fun c h => h⟩
    | some p =>
      obtain ⟨pre, post⟩ := p
      have hmap := splitFirst_append_right ':' A ('?' :: q) hc
      rw [hs] at hmap
      rw [splitScheme, hs]
      dsimp only
      have hq : splitFirst ':' ('?' :: q) = (splitFirst ':' q).map (fun p => ('?' :: p.1, p.2)) := by
        rw [splitFirst, if_neg (by decide)]
      rw [hq] at hmap
      cases hsq : splitFirst ':' q with
      | none => rw [hsq] at hmap; simp at hmap
      | some p2 =>
        obtain ⟨q1, q2⟩ := p2
        rw [hsq] at hmap
        simp only [Option.map_some', Option.some.injEq, Prod.mk.injEq] at hmap
        obtain ⟨hpre, hpost⟩ := hmap
        have hqmem : '?' ∈ pre := by
          rw [hpre]
          exact List.mem_append.2 (.inr (List.mem_cons_self _ _))
        have hcond : ¬ (pre ≠ [] ∧ (∀ c ∈ List.take 1 pre, isAsciiAlpha c = true) ∧
            ∀ c ∈ pre, c ∈ schemeChars) := by
          intro hcond
          exact absurd (hcond.2.2 '?' hqmem) (by decide)
        rw [if_neg hcond]
        exact ⟨"", A, rfl, fun c h => h⟩

theorem netlocStage_append_query (B q : List Char) (hB : '?' ∉ B) :
    ∃ N C : List Char,
      netlocStage (B ++ '?' :: q) = (N, C ++ '?' :: q)
      ∧ (∀ c ∈ N, c ∈ B) ∧ (∀ c ∈ C, c ∈ B) := by
  by_cases h2 : (B ++ '?' :: q).take 2 = ['/', '/']
  · -- B must start with two slashes
    match B, hB with
    | [], _ => simp at h2
    | ['/'], _ => simp at h2
    | b1 :: b2 :: B2, hB =>
      simp only [List.cons_append, List.take, List.cons.injEq] at h2
      obtain ⟨hb1, hb2, -⟩ := h2
      subst hb1
      subst hb2
      refine ⟨List.takeWhile (fun c => ¬(c = '/' ∨ c = '?' ∨ c = '#')) B2,
              List.dropWhile (fun c => ¬(c = '/' ∨ c = '?' ∨ c = '#')) B2, ?_, ?_, ?_⟩
      · rw [netlocStage, if_pos (by simp [List.take])]
        simp only [List.cons_append, List.drop]
        rw [splitNetloc]
        simp only [List.append_eq]
        rw [takeWhile_append_cons _ _ _ _ (by decide),
            dropWhile_append_cons _ _ _ _ (by decide)]
      · intro c hc2
        exact List.mem_cons_of_mem _ (List.mem_cons_of_mem _
          ((List.takeWhile_prefix _).subset hc2))
      · intro c hc2
        exact List.mem_cons_of_mem _ (List.mem_cons_of_mem _
          ((List.dropWhile_suffix _).subset hc2))
  · rw [netlocStage, if_neg h2]
    exact ⟨[], B, rfl, by simp, fun c h => h⟩

/-- The key reparse fact: splitting a URL of the form `A ++ \'?\' :: q`,
where the prefix `A` contains no `?` or `#` and the query part `q`
contains no `#` and no tab/CR/LF, recovers exactly `q` as the query
(whatever the scheme/netloc/path stages do, they stay within `A`). -/
theorem pyUrlsplitL_append_query (A q : List Char)
    (hA1 : '?' ∉ A) (hA2 : '#' ∉ A) (hq1 : '#' ∉ q)
    (hq2 : ∀ c ∈ q, ¬(c = '\t' ∨ c = '\r' ∨ c = '\n')) :
    ∀ r, pyUrlsplitL (A ++ '?' :: q) = .ok r → r.query = String.mk q := by
  intro r hr
  have hstrip : removeUnsafe (lstripC0 (A ++ '?' :: q))
      = removeUnsafe (lstripC0 A) ++ '?' :: q := by
    rw [lstripC0, dropWhile_append_cons _ _ _ _ (by decide)]
    rw [removeUnsafe, removeUnsafe, List.filter_append]
    congr 1
    rw [List.filter_cons, if_pos (by decide)]
    congr 1
    exact List.filter_eq_self.2 (fun c hc => decide_eq_true (hq2 c hc))
  set A' := removeUnsafe (lstripC0 A) with hA'def
  have hA'sub : ∀ c ∈ A', c ∈ A := by
    intro c hc
    have h1 := List.mem_filter.1 hc
    exact (List.dropWhile_suffix _).subset h1.1
  have hA'1 : '?' ∉ A' := fun h => hA1 (hA'sub _ h)
  have hA'2 : '#' ∉ A' := fun h => hA2 (hA'sub _ h)
  obtain ⟨s, B, hB, hBsub⟩ := splitScheme_append_query A' q
  have hB1 : '?' ∉ B := fun h => hA'1 (hBsub _ h)
  have hB2 : '#' ∉ B := fun h => hA'2 (hBsub _ h)
  obtain ⟨N, C, hC, hNsub, hCsub⟩ := netlocStage_append_query B q hB1
  have hC1 : '?' ∉ C := fun h => hB1 (hCsub _ h)
  have hC2 : '#' ∉ C := fun h => hB2 (hCsub _ h)
  rw [pyUrlsplitL] at hr
  rw [hstrip] at hr
  rw [hB] at hr
  dsimp only at hr
  rw [hC] at hr
  dsimp only at hr
  by_cases hbr : (N.contains '[') ≠ (N.contains ']')
  · rw [if_pos hbr] at hr
    simp at hr
  · rw [if_neg hbr] at hr
    have hfrag : splitFirst '#' (C ++ '?' :: q) = none := by
      rw [splitFirst_eq_none_iff]
      intro hmem
      rcases List.mem_append.1 hmem with h | h
      · exact hC2 h
      · rcases List.mem_cons.1 h with h | h
        · exact absurd h (by decide)
        · exact hq1 h
    rw [hfrag] at hr
    dsimp only at hr
    have hquery : splitFirst '?' (C ++ '?' :: q) = some (C, q) := by
      rw [splitFirst_append_right '?' C _ hC1, splitFirst, if_pos rfl]
      simp
    rw [hquery] at hr
    dsimp only at hr
    simp only [Except.ok.injEq] at hr
    rw [← hr]

theorem mem_takeWhile_pred {p : Char → Bool} :
    ∀ {l : List Char} {x : Char}, x ∈ List.takeWhile p l → p x = true := by
  intro l
  induction l with
  | nil => intro x h; simp [List.takeWhile] at h
  | cons a as ih =>
    intro x h
    by_cases hp : p a = true
    · simp only [List.takeWhile, hp] at h
      rcases List.mem_cons.1 h with h' | h'
      · subst h'
        exact hp
      · exact ih h'
    · have hp' : p a = false := by
        cases hpa : p a
        · rfl
        · exact absurd hpa hp
      simp only [List.takeWhile, hp'] at h
      simp at h

theorem splitScheme_subset (l : List Char) (s : String) (l1 : List Char)
    (h : splitScheme l = (s, l1)) :
    (∀ x ∈ s.data, x ∈ schemeChars) ∧ (∀ x ∈ l1, x ∈ l) := by
  rw [splitScheme] at h
  cases hs : splitFirst ':' l with
  | none =>
    rw [hs] at h
    dsimp only at h
    simp only [Prod.mk.injEq] at h
    obtain ⟨h1, h2⟩ := h
    subst h1
    subst h2
    exact ⟨by simp, fun x hx => hx⟩
  | some p =>
    obtain ⟨pre, post⟩ := p
    rw [hs] at h
    dsimp only at h
    obtain ⟨hdecomp, -⟩ := splitFirst_eq_some ':' l pre post hs
    by_cases hcond : pre ≠ [] ∧ (∀ c ∈ List.take 1 pre, isAsciiAlpha c = true) ∧
        ∀ c ∈ pre, c ∈ schemeChars
    · rw [if_pos hcond] at h
      simp only [Prod.mk.injEq] at h
      obtain ⟨h1, h2⟩ := h
      subst h1
      subst h2
      constructor
      · intro x hx
        obtain ⟨c, hc, hcd⟩ := List.mem_map.1 hx
        have hmem : c ∈ schemeChars := hcond.2.2 c hc
        have hcl : ∀ c ∈ schemeChars, asciiLower c ∈ schemeChars := by decide
        exact hcd ▸ hcl c hmem
      · intro x hx
        rw [hdecomp]
        exact List.mem_append.2 (.inr (List.mem_cons_of_mem _ hx))
    · rw [if_neg hcond] at h
      simp only [Prod.mk.injEq] at h
      obtain ⟨h1, h2⟩ := h
      subst h1
      subst h2
      exact ⟨by simp, fun x hx => hx⟩

theorem netlocStage_facts (l N C : List Char) (h : netlocStage l = (N, C)) :
    (∀ x ∈ N, ¬(x = '/' ∨ x = '?' ∨ x = '#')) ∧ (∀ x ∈ C, x ∈ l) := by
  rw [netlocStage] at h
  by_cases h2 : l.take 2 = ['/', '/']
  · rw [if_pos h2] at h
    rw [splitNetloc] at h
    simp only [Prod.mk.injEq] at h
    obtain ⟨h1', h2'⟩ := h
    subst h1'
    subst h2'
    constructor
    · intro x hx
      exact of_decide_eq_true (mem_takeWhile_pred hx)
    · intro x hx
      exact List.drop_subset 2 l ((List.dropWhile_suffix _).subset hx)
  · rw [if_neg h2] at h
    simp only [Prod.mk.injEq] at h
    obtain ⟨h1', h2'⟩ := h
    subst h1'
    subst h2'
    exact ⟨by simp, fun x hx => hx⟩

/-- A URL with no `?` at all splits with an empty query. -/
theorem pyUrlsplitL_no_query (A : List Char) (hA1 : '?' ∉ A) :
    ∀ r, pyUrlsplitL A = .ok r → r.query = "" := by
  intro r hr
  rw [pyUrlsplitL] at hr
  have hLsub : ∀ c ∈ removeUnsafe (lstripC0 A), c ∈ A := by
    intro c hc
    exact (List.dropWhile_suffix _).subset (List.mem_filter.1 hc).1
  rcases hS : splitScheme (removeUnsafe (lstripC0 A)) with ⟨s, l1⟩
  obtain ⟨-, hl1⟩ := splitScheme_subset _ _ _ hS
  rw [hS] at hr
  dsimp only at hr
  rcases hN : netlocStage l1 with ⟨netl, l2⟩
  obtain ⟨-, hl2⟩ := netlocStage_facts _ _ _ hN
  rw [hN] at hr
  dsimp only at hr
  have hl2A : ∀ c ∈ l2, c ∈ A := fun c hc => hLsub c (hl1 c (hl2 c hc))
  by_cases hbr : (netl.contains '[') ≠ (netl.contains ']')
  · rw [if_pos hbr] at hr
    simp at hr
  · rw [if_neg hbr] at hr
    have hl3 : ∃ l3 : List Char, (match splitFirst '#' l2 with
        | none => (l2, ([] : List Char))
        | some (a, b) => (a, b)).1 = l3 ∧ ∀ c ∈ l3, c ∈ l2 := by
      cases hf : splitFirst '#' l2 with
      | none => exact ⟨l2, rfl, fun c hc => hc⟩
      | some p =>
        obtain ⟨a, b⟩ := p
        obtain ⟨hdecomp, -⟩ := splitFirst_eq_some '#' l2 a b hf
        refine ⟨a, rfl, fun c hc => ?_⟩
        rw [hdecomp]
        exact List.mem_append.2 (.inl hc)
    obtain ⟨l3, hl3eq, hl3sub⟩ := hl3
    rw [hl3eq] at hr
    have hq : splitFirst '?' l3 = none := by
      rw [splitFirst_eq_none_iff]
      intro hmem
      exact hA1 (hl2A _ (hl3sub _ hmem))
    rw [hq] at hr
    dsimp only at hr
    simp only [Except.ok.injEq] at hr
    rw [← hr]

/-- Character-level facts about every successful `urlsplit`: the scheme
stays within `scheme_chars`, the netloc avoids `/?#`, path and query
avoid the delimiters that were split on, and the query (taken from the
tab/CR/LF-filtered input) is clean. -/
theorem pyUrlsplitL_ok_components (l0 : List Char) (r : SplitResult)
    (hr : pyUrlsplitL l0 = .ok r) :
    (∀ x ∈ r.scheme.data, x ∈ schemeChars)
    ∧ (∀ x ∈ r.netloc.data, ¬(x = '/' ∨ x = '?' ∨ x = '#'))
    ∧ ('?' ∉ r.path.data ∧ '#' ∉ r.path.data)
    ∧ ('#' ∉ r.query.data ∧ ∀ x ∈ r.query.data, ¬(x = '\t' ∨ x = '\r' ∨ x = '\n')) := by
  rw [pyUrlsplitL] at hr
  have hclean : ∀ c ∈ removeUnsafe (lstripC0 l0), ¬(c = '\t' ∨ c = '\r' ∨ c = '\n') := by
    intro c hc
    exact of_decide_eq_true (List.mem_filter.1 hc).2
  rcases hS : splitScheme (removeUnsafe (lstripC0 l0)) with ⟨s, l1⟩
  obtain ⟨hscheme, hl1⟩ := splitScheme_subset _ _ _ hS
  rw [hS] at hr
  dsimp only at hr
  rcases hN : netlocStage l1 with ⟨netl, l2⟩
  obtain ⟨hnetl, hl2⟩ := netlocStage_facts _ _ _ hN
  rw [hN] at hr
  dsimp only at hr
  by_cases hbr : (netl.contains '[') ≠ (netl.contains ']')
  · rw [if_pos hbr] at hr
    simp at hr
  · rw [if_neg hbr] at hr
    have hl3 : ∃ l3 : List Char, (match splitFirst '#' l2 with
        | none => (l2, ([] : List Char))
        | some (a, b) => (a, b)).1 = l3 ∧ (∀ c ∈ l3, c ∈ l2) ∧ '#' ∉ l3 := by
      cases hf : splitFirst '#' l2 with
      | none =>
        exact ⟨l2, rfl, fun c hc => hc, (splitFirst_eq_none_iff '#' l2).1 hf⟩
      | some p =>
        obtain ⟨a, b⟩ := p
        obtain ⟨hdecomp, hna⟩ := splitFirst_eq_some '#' l2 a b hf
        refine ⟨a, rfl, fun c hc => ?_, hna⟩
        rw [hdecomp]
        exact List.mem_append.2 (.inl hc)
    obtain ⟨l3, hl3eq, hl3sub, hl3hash⟩ := hl3
    rw [hl3eq] at hr
    have hpq : ∃ path query : List Char,
        (match splitFirst '?' l3 with
          | none => (l3, ([] : List Char))
          | some (a, b) => (a, b)) = (path, query)
        ∧ ('?' ∉ path ∧ ∀ c ∈ path, c ∈ l3)
        ∧ (∀ c ∈ query, c ∈ l3) := by
      cases hf : splitFirst '?' l3 with
      | none =>
        exact ⟨l3, [], rfl, ⟨(splitFirst_eq_none_iff '?' l3).1 hf, fun c hc => hc⟩,
          by simp⟩
      | some p =>
        obtain ⟨a, b⟩ := p
        obtain ⟨hdecomp, hna⟩ := splitFirst_eq_some '?' l3 a b hf
        refine ⟨a, b, rfl, ⟨hna, fun c hc => ?_⟩, fun c hc => ?_⟩
        · rw [hdecomp]
          exact List.mem_append.2 (.inl hc)
        · rw [hdecomp]
          exact List.mem_append.2 (.inr (List.mem_cons_of_mem _ hc))
    obtain ⟨path, query, hpqeq, ⟨hpath1, hpath2⟩, hqsub⟩ := hpq
    rw [hpqeq] at hr
    dsimp only at hr
    simp only [Except.ok.injEq] at hr
    subst hr
    refine ⟨hscheme, hnetl, ⟨hpath1, fun h => hl3hash (hpath2 _ h)⟩, ?_, ?_⟩
    · intro h
      exact hl3hash (hqsub _ h)
    · intro x hx
      exact hclean x (hl1 x (hl2 x (hl3sub x (hqsub x hx))))

theorem splitLast_eq_some (c : Char) (l a b : List Char)
    (h : splitLast c l = some (a, b)) : l = a ++ c :: b ∧ c ∉ b := by
  rw [splitLast] at h
  cases hs : splitFirst c l.reverse with
  | none => rw [hs] at h; simp at h
  | some p =>
    obtain ⟨ra, rb⟩ := p
    rw [hs] at h
    dsimp only at h
    simp only [Option.some.injEq, Prod.mk.injEq] at h
    obtain ⟨ha, hb⟩ := h
    obtain ⟨hdecomp, hna⟩ := splitFirst_eq_some c l.reverse ra rb hs
    constructor
    · have := congrArg List.reverse hdecomp
      rw [List.reverse_reverse] at this
      rw [this, List.reverse_append, List.reverse_cons]
      rw [← ha, ← hb]
      simp
    · rw [← hb]
      simpa using hna

theorem splitParamsL_facts (l a b : List Char) (h : splitParamsL l = (a, b)) :
    (∀ x ∈ a, x ∈ l ∨ x = '/') ∧ (∀ x ∈ b, x ∈ l) := by
  rw [splitParamsL] at h
  cases hsl : splitLast '/' l with
  | some p =>
    obtain ⟨before, lastSeg⟩ := p
    obtain ⟨hdecomp, -⟩ := splitLast_eq_some '/' l before lastSeg hsl
    rw [hsl] at h
    dsimp only at h
    cases hsf : splitFirst ';' lastSeg with
    | none =>
      rw [hsf] at h
      simp only [Prod.mk.injEq] at h
      obtain ⟨h1, h2⟩ := h
      subst h1
      subst h2
      exact ⟨fun x hx => .inl hx, by simp⟩
    | some p2 =>
      obtain ⟨a1, b1⟩ := p2
      obtain ⟨hdecomp2, -⟩ := splitFirst_eq_some ';' lastSeg a1 b1 hsf
      rw [hsf] at h
      simp only [Prod.mk.injEq] at h
      obtain ⟨h1, h2⟩ := h
      subst h1
      subst h2
      constructor
      · intro x hx
        rcases List.mem_append.1 hx with h' | h'
        · exact .inl (hdecomp ▸ List.mem_append.2 (.inl h'))
        · rcases List.mem_cons.1 h' with h'' | h''
          · exact .inr h''
          · refine .inl (hdecomp ▸ List.mem_append.2 (.inr (List.mem_cons_of_mem _ ?_)))
            exact hdecomp2 ▸ List.mem_append.2 (.inl h'')
      · intro x hx
        refine hdecomp ▸ List.mem_append.2 (.inr (List.mem_cons_of_mem _ ?_))
        exact hdecomp2 ▸ List.mem_append.2 (.inr (List.mem_cons_of_mem _ hx))
  | none =>
    rw [hsl] at h
    dsimp only at h
    cases hsf : splitFirst ';' l with
    | none =>
      rw [hsf] at h
      simp only [Prod.mk.injEq] at h
      obtain ⟨h1, h2⟩ := h
      subst h1
      subst h2
      exact ⟨fun x hx => .inl hx, by simp⟩
    | some p2 =>
      obtain ⟨a1, b1⟩ := p2
      obtain ⟨hdecomp2, -⟩ := splitFirst_eq_some ';' l a1 b1 hsf
      rw [hsf] at h
      simp only [Prod.mk.injEq] at h
      obtain ⟨h1, h2⟩ := h
      subst h1
      subst h2
      constructor
      · intro x hx
        exact .inl (hdecomp2 ▸ List.mem_append.2 (.inl hx))
      · intro x hx
        exact hdecomp2 ▸ List.mem_append.2 (.inr (List.mem_cons_of_mem _ hx))

/-- `urlparse` is `urlsplit` with a path/params refinement: the query and
the component character facts carry over, with path and params avoiding
`?` and `#`. -/
theorem pyUrlparse_ok_components (u : String) (p : ParseResult)
    (hp : pyUrlparse u = .ok p) :
    (∀ x ∈ p.scheme.data, x ∈ schemeChars)
    ∧ (∀ x ∈ p.netloc.data, ¬(x = '/' ∨ x = '?' ∨ x = '#'))
    ∧ ('?' ∉ p.path.data ∧ '#' ∉ p.path.data)
    ∧ ('?' ∉ p.params.data ∧ '#' ∉ p.params.data)
    ∧ ('#' ∉ p.query.data ∧ ∀ x ∈ p.query.data, ¬(x = '\t' ∨ x = '\r' ∨ x = '\n')) := by
  rw [pyUrlparse] at hp
  cases hs : pyUrlsplit u with
  | error e => rw [hs] at hp; simp [bind, Except.bind] at hp
  | ok r =>
    rw [hs] at hp
    simp only [bind, Except.bind] at hp
    obtain ⟨h1, h2, ⟨h3a, h3b⟩, h4a, h4b⟩ := pyUrlsplitL_ok_components u.data r hs
    have hpp : ∃ path params : List Char,
        (if usesParams.contains r.scheme && r.path.data.contains ';' then
          splitParamsL r.path.data
        else (r.path.data, [])) = (path, params)
        ∧ (∀ x ∈ path, x ∈ r.path.data ∨ x = '/') ∧ (∀ x ∈ params, x ∈ r.path.data) := by
      by_cases hcond : (usesParams.contains r.scheme && r.path.data.contains ';') = true
      · rcases hsp : splitParamsL r.path.data with ⟨a, b⟩
        obtain ⟨hfa, hfb⟩ := splitParamsL_facts _ _ _ hsp
        exact ⟨a, b, by rw [if_pos hcond], hfa, hfb⟩
      · exact ⟨r.path.data, [], by rw [if_neg hcond], fun x hx => .inl hx, by simp⟩
    obtain ⟨path, params, hpeq, hpa, hpb⟩ := hpp
    rw [hpeq] at hp
    dsimp only at hp
    simp only [Except.ok.injEq] at hp
    subst hp
    refine ⟨h1, h2, ⟨?_, ?_⟩, ⟨?_, ?_⟩, h4a, h4b⟩
    · intro h
      rcases hpa _ h with h' | h'
      · exact h3a h'
      · exact absurd h' (by decide)
    · intro h
      rcases hpa _ h with h' | h'
      · exact h3b h'
      · exact absurd h' (by decide)
    · exact fun h => h3a (hpb _ h)
    · exact fun h => h3b (hpb _ h)

theorem rstripSlash_subset (s : String) : ∀ x ∈ (rstripSlash s).data, x ∈ s.data := by
  intro x hx
  rw [rstripSlash] at hx
  have h1 : x ∈ List.dropWhile (fun c => c = '/') s.data.reverse :=
    List.mem_reverse.1 hx
  exact List.mem_reverse.1 ((List.dropWhile_suffix _).subset h1)

/-- With a nonempty query, `urlunparse` is the query-free unparse followed
by `?query` (the fragment is empty throughout the canonicalizer). -/
theorem pyUrlunparse_query_split (s n path params q : String) (hq : q ≠ "") :
    pyUrlunparse s n path params q ""
      = (pyUrlunparse s n path params "" "") ++ "?" ++ q := by
  rw [pyUrlunparse, pyUrlunparse, pyUrlunsplit, pyUrlunsplit]
  dsimp only
  split_ifs <;> simp_all

/-- The query-free unparse contains no occurrence of a character `d`
(other than `:`, `/`, `;`) that occurs in none of its components. -/
theorem not_mem_unparse_prefix (d : Char) (s n path params : String)
    (hd1 : d ≠ ':') (hd2 : d ≠ '/') (hd3 : d ≠ ';')
    (hs : d ∉ s.data) (hn : d ∉ n.data) (hpath : d ∉ path.data)
    (hparams : d ∉ params.data) :
    d ∉ (pyUrlunparse s n path params "" "").data := by
  intro hmem
  rw [pyUrlunparse, pyUrlunsplit] at hmem
  dsimp only at hmem
  split_ifs at hmem <;>
    (try simp only [String.data_append, List.mem_append, List.mem_cons, List.not_mem_nil,
      show (":" : String).data = [':'] from rfl,
      show ("//" : String).data = ['/', '/'] from rfl,
      show ("/" : String).data = ['/'] from rfl,
      show (";" : String).data = [';'] from rfl,
      show ("" : String).data = [] from rfl,
      or_false, false_or] at hmem) <;>
    tauto

/-- `urlparse` passes the `urlsplit` query through unchanged. -/
theorem pyUrlparse_query (c : String) (r : ParseResult)
    (hr : pyUrlparse c = .ok r) :
    ∃ r0 : SplitResult, pyUrlsplit c = .ok r0 ∧ r.query = r0.query := by
  rw [pyUrlparse] at hr
  cases hs : pyUrlsplit c with
  | error e => rw [hs] at hr; simp [bind, Except.bind] at hr
  | ok r0 =>
    rw [hs] at hr
    simp only [bind, Except.bind] at hr
    rcases hsp : (if usesParams.contains r0.scheme && r0.path.data.contains ';' then
        splitParamsL r0.path.data
      else (r0.path.data, [])) with ⟨path, params⟩
    rw [hsp] at hr
    dsimp only at hr
    simp only [Except.ok.injEq] at hr
    subst hr
    exact ⟨r0, rfl, rfl⟩

/-- Helper for C9: the canonical form assembled by the utils
`canonicalize` parses back with exactly the original query. -/
theorem canonicalize_preserves_query (u c : String) (p r : ParseResult)
    (hu : pyUrlparse u = .ok p) (hc : utilsCanonicalize u = .ok c)
    (hr : pyUrlparse c = .ok r) : r.query = p.query := by
  have hcdef : c = pyUrlunparse (lowerS p.scheme) (lowerS p.netloc)
      (rstripSlash p.path) p.params p.query "" := by
    rw [utilsCanonicalize, hu] at hc
    simp only [bind, Except.bind, Except.ok.injEq] at hc
    exact hc.symm
  obtain ⟨hS, hN, ⟨hP1, hP2⟩, ⟨hM1, hM2⟩, hQ1, hQ2⟩ := pyUrlparse_ok_components u p hu
  have hs1 : '?' ∉ (lowerS p.scheme).data :=
    not_mem_map_asciiLower '?' (by decide) _ (fun h => absurd (hS _ h) (by decide))
  have hs2 : '#' ∉ (lowerS p.scheme).data :=
    not_mem_map_asciiLower '#' (by decide) _ (fun h => absurd (hS _ h) (by decide))
  have hn1 : '?' ∉ (lowerS p.netloc).data :=
    not_mem_map_asciiLower '?' (by decide) _ (fun h => (hN _ h) (by simp))
  have hn2 : '#' ∉ (lowerS p.netloc).data :=
    not_mem_map_asciiLower '#' (by decide) _ (fun h => (hN _ h) (by simp))
  have hp1 : '?' ∉ (rstripSlash p.path).data := fun h => hP1 (rstripSlash_subset _ _ h)
  have hp2 : '#' ∉ (rstripSlash p.path).data := fun h => hP2 (rstripSlash_subset _ _ h)
  obtain ⟨r0, hr0, hrq⟩ := pyUrlparse_query c r hr
  by_cases hq : p.query = ""
  · rw [hq] at hcdef
    have hnoq : '?' ∉ c.data := by
      rw [hcdef]
      exact not_mem_unparse_prefix '?' _ _ _ _ (by decide) (by decide) (by decide)
        hs1 hn1 hp1 hM1
    rw [hrq, pyUrlsplitL_no_query c.data hnoq r0 hr0, hq]
  · have hA1 : '?' ∉ (pyUrlunparse (lowerS p.scheme) (lowerS p.netloc)
        (rstripSlash p.path) p.params "" "").data :=
      not_mem_unparse_prefix '?' _ _ _ _ (by decide) (by decide) (by decide)
        hs1 hn1 hp1 hM1
    have hA2 : '#' ∉ (pyUrlunparse (lowerS p.scheme) (lowerS p.netloc)
        (rstripSlash p.path) p.params "" "").data :=
      not_mem_unparse_prefix '#' _ _ _ _ (by decide) (by decide) (by decide)
        hs2 hn2 hp2 hM2
    have hcdata : c.data = (pyUrlunparse (lowerS p.scheme) (lowerS p.netloc)
        (rstripSlash p.path) p.params "" "").data ++ '?' :: p.query.data := by
      rw [hcdef, pyUrlunparse_query_split _ _ _ _ _ hq]
      simp only [String.data_append, show ("?" : String).data = ['?'] from rfl]
      simp
    have hsplit : pyUrlsplitL ((pyUrlunparse (lowerS p.scheme) (lowerS p.netloc)
        (rstripSlash p.path) p.params "" "").data ++ '?' :: p.query.data) = .ok r0 := by
      rw [← hcdata]
      exact hr0
    have := pyUrlsplitL_append_query _ _ hA1 hA2 hQ1 hQ2 r0 hsplit
    rw [hrq, this]

/-! ## C9 — query preservation through normalize/canonicalize -/

/-- C9 counterexample: on the link-extractor path every URL goes through
`normalize`, which lower-cases the WHOLE url including the query, so the
query component of the normalized output is not the input query character
for character. -/
theorem query_lowercased_counterexample :
    pyNormalize "http://example.onion/p?Q=ABC" = "http://example.onion/p?q=abc"
    ∧ (pyUrlparse "http://example.onion/p?q=abc").map ParseResult.query = .ok "q=abc"
    ∧ (pyUrlparse "http://example.onion/p?Q=ABC").map ParseResult.query = .ok "Q=ABC"
    ∧ ("q=abc" : String) ≠ "Q=ABC" := by
  exact ⟨rfl, rfl, rfl, by decide⟩

/-- C9 (amended): `normalize` preserves the query's order and structure
but only up to case — its output is the ASCII lower-casing of the
(possibly `http://`-prefixed) stripped input; `canonicalize` itself
passes the query through verbatim: reparsing its output recovers the
input's query component character for character. -/
theorem normalize_query_up_to_case :
    (∀ u : String, pyNormalize u = lowerS (pyStrip u)
        ∨ pyNormalize u = lowerS ("http://" ++ pyStrip u))
    ∧ (∀ (u c : String) (p r : ParseResult),
        pyUrlparse u = .ok p → utilsCanonicalize u = .ok c →
        pyUrlparse c = .ok r → r.query = p.query) := by
  constructor
  · intro u
    rw [pyNormalize]
    by_cases h : pyStartsWith (lowerS (pyStrip u)) "http" = true
    · left
      rw [if_pos h]
    · right
      rw [if_neg h]
  · exact fun u c p r hu hc hr => canonicalize_preserves_query u c p r hu hc hr

/-- C9 witness: the round-trip theorem applied to a concrete two-parameter
query, which comes back verbatim from the canonical form. -/
theorem normalize_query_up_to_case_witness :
    pyUrlparse "http://x.onion/p?a=1&b=2"
      = .ok ⟨"http", "x.onion", "/p", "", "a=1&b=2", ""⟩
    ∧ utilsCanonicalize "http://x.onion/p?a=1&b=2" = .ok "http://x.onion/p?a=1&b=2"
    ∧ (⟨"http", "x.onion", "/p", "", "a=1&b=2", ""⟩ : ParseResult).query
        = (⟨"http", "x.onion", "/p", "", "a=1&b=2", ""⟩ : ParseResult).query :=
  ⟨rfl, rfl,
    normalize_query_up_to_case.2 "http://x.onion/p?a=1&b=2" "http://x.onion/p?a=1&b=2"
      ⟨"http", "x.onion", "/p", "", "a=1&b=2", ""⟩
      ⟨"http", "x.onion", "/p", "", "a=1&b=2", ""⟩ rfl rfl rfl⟩

end Darknet
